import Mathlib

/-!
Verification of the COS (Carousel Object Structure) value grammar parser and
the indirect-object reference resolver of the libpdf repository
(src/cos.py and src/parse.py).

The development has two embeddings:

1. A parse-layer embedding of the byte-level decoders.  Python byte strings
   are lists of byte values (Nat below 256).  Every decoder returns a PRes
   value that distinguishes the four ways a Python decoder call can end:
   a normal return of a parsed value and the remaining bytes, a raised
   ParseError (the only exception the dispatcher parse_cos_value absorbs),
   a normal return of None (String.from_bytes falls off the end of the
   function when a parenthesis string has no closing parenthesis), and an
   escaped non-ParseError exception (UnicodeDecodeError, TypeError from
   unpacking None, ValueError from an octal escape with a digit of 8 or 9).
   The mutually recursive container decoders are written as one function,
   runP, structurally recursive on a fuel argument; fuel exhaustion is a
   distinct outcome that occurs for no input reachable in the theorems here.
   The model restricts the Python utf-8 decode calls to the ASCII case
   (bytes of 128 and above map to the escaped-exception outcome); every
   byte span the decoders actually hand to decode in the situations covered
   by the claims is ASCII, and the Name decoder only ever decodes spans of
   bytes strictly between 0x21 and 0x7E, so no behaviour relevant to a
   claim depends on this restriction.

2. A store-based embedding of the reference resolver.  Python objects are
   heap nodes addressed by a NodeId; a store maps node ids to node data, and
   composite nodes hold the node ids of their children, which makes the
   in-place, identity-sharing mutation of replace_references explicit:
   replacing a child slot assigns the node id of the shared table entry,
   never a copy of its subtree.  The replace_references recursion is again
   fuel-indexed; the central result (masterNode below) shows that on stores
   whose per-object subgraphs are finite trees - which is what the parser
   produces, no matter how the identity-level reference graph is shaped,
   cycles included - the recursion never exhausts fuel beyond the tree
   depth, rewrites exactly the reference-holding child slots to the shared
   table entries, and leaves every other node untouched.
-/

/-! ## Parse layer: byte strings and small helpers -/

/-- Python byte strings are modelled as lists of byte values. -/
abbrev Bytes := List Nat

/-- The characters stripped by Python bytes.strip with no argument, which
coincide with the bytes matched by the regex class backslash-s on a bytes
pattern: tab, line feed, vertical tab, form feed, carriage return, space. -/
def pyWsB (c : Nat) : Bool :=
  c == 0x09 || c == 0x0A || c == 0x0B || c == 0x0C || c == 0x0D || c == 0x20

/-- bytes.lstrip() -/
def pyLstrip (s : Bytes) : Bytes := s.dropWhile pyWsB

/-- bytes.rstrip() -/
def pyRstrip (s : Bytes) : Bytes := (s.reverse.dropWhile pyWsB).reverse

/-- bytes.strip() -/
def pyStrip (s : Bytes) : Bytes := pyRstrip (pyLstrip s)

/-- bytes.lower(): map the byte values of A-Z to a-z. -/
def lowerB (c : Nat) : Nat := if 0x41 ≤ c && c ≤ 0x5A then c + 0x20 else c

/-- bytes.lower() over a whole byte string. -/
def pyLower (s : Bytes) : Bytes := s.map lowerB

/-- bytes.startswith(pre). -/
def bstarts : Bytes → Bytes → Bool
  | [], _ => true
  | _ :: _, [] => false
  | a :: as, b :: bs => a == b && bstarts as bs

/-- An ASCII decimal digit byte. -/
def isDigitB (c : Nat) : Bool := 0x30 ≤ c && c ≤ 0x39

/-- The value of a digit string, as Python int() computes it. -/
def digitsToNat (ds : Bytes) : Nat := ds.foldl (fun a c => a * 10 + (c - 0x30)) 0

/-- Index of the first occurrence of byte c, as bytes.index returns it
(none models the raised ValueError). -/
def idxOf (c : Nat) : Bytes → Option Nat
  | [] => none
  | b :: bs => if b == c then some 0 else (idxOf c bs).map (· + 1)

/-- bytes.split(sep, 1) when it yields two pieces: the part before the first
occurrence of sep and the part after it; none models the single-piece
result whose unpacking raises ValueError. -/
def splitOnce (sep : Bytes) : Bytes → Option (Bytes × Bytes)
  | [] => none
  | c :: rest =>
    if bstarts sep (c :: rest) then some ([], (c :: rest).drop sep.length)
    else (splitOnce sep rest).map (fun p => (c :: p.1, p.2))

/-- The bytes of an ASCII string literal, for readable concrete inputs. -/
def bytesOfAscii (s : String) : Bytes := s.data.map Char.toNat

/-! ## Parse layer: the COS value type and result type -/

/-- The parsed COS value tree, mirroring the CosValue subclasses of
src/cos.py.  A Number is an int or a float in Python; a real literal is
kept as its matched text since no claim depends on float arithmetic. -/
inductive CosV where
  | null
  | boolean (value : Bool)
  | numInt (value : Int)
  | numReal (text : String)
  | str (value : Bytes) (encoding : Option String)
  | name (label : String)
  | array (elements : List CosV)
  | dict (entries : List (String × CosV))
  | stream (sdict : List (String × CosV)) (value : Bytes)
  | ref (objNum genNum : Nat)

/-- The outcome of calling a Python decoder. -/
inductive PRes (α : Type) where
  | ok (val : α)
  /-- A raised cos.ParseError; the only outcome the dispatcher absorbs. -/
  | perr
  /-- The function returned None by falling off the end of its body. -/
  | noneret
  /-- A non-ParseError exception escaped. -/
  | exn
  /-- Model artifact: the recursion budget ran out. -/
  | fuelOut

/-! ## Parse layer: the primitive decoders of src/cos.py -/

/-- Null.from_bytes (src/cos.py lines 45-52): lstrip, then a
case-insensitive match of the null literal; the remainder is taken from the
unlowered string. -/
def Null_from_bytes (s : Bytes) : PRes (CosV × Bytes) :=
  let s1 := pyLstrip s
  if bstarts (bytesOfAscii "null") (pyLower s1) then .ok (.null, s1.drop 4)
  else .perr

/-- Boolean.from_bytes (src/cos.py lines 59-68): the input is lstripped and
lowered in one assignment, so the remainder handed back is the lowered
rest of the input, not the original bytes. -/
def Boolean_from_bytes (s : Bytes) : PRes (CosV × Bytes) :=
  let s1 := pyLower (pyLstrip s)
  if bstarts (bytesOfAscii "true") s1 then .ok (.boolean true, s1.drop 4)
  else if bstarts (bytesOfAscii "false") s1 then .ok (.boolean false, s1.drop 5)
  else .perr

/-- The number token matcher, mirroring the compiled pattern of
Number.from_bytes: an optional sign followed by digits with an optional
fractional part, or a bare dot followed by digits; the sign is only
permitted on the first alternative.  Returns the matched text and the
rest. -/
def matchNumberTok (s : Bytes) : Option (Bytes × Bytes) :=
  let signed : Bytes × Bytes :=
    match s with
    | c :: rest => if c == 0x2B || c == 0x2D then ([c], rest) else ([], s)
    | [] => ([], [])
  let sign := signed.1
  let s1 := signed.2
  let ds := s1.takeWhile isDigitB
  if ds.isEmpty then
    -- the first alternative needs at least one digit; fall back to .digits
    match s with
    | 0x2E :: r2 =>
      let fs := r2.takeWhile isDigitB
      if fs.isEmpty then none
      else some (0x2E :: fs, r2.dropWhile isDigitB)
    | _ => none
  else
    let r := s1.dropWhile isDigitB
    match r with
    | 0x2E :: r2 =>
      let fs := r2.takeWhile isDigitB
      if fs.isEmpty then some (sign ++ ds, r)
      else some (sign ++ ds ++ 0x2E :: fs, r2.dropWhile isDigitB)
    | _ => some (sign ++ ds, r)

/-- The Python int() value of a matched signed digit string. -/
def intOfTok (t : Bytes) : Int :=
  match t with
  | 0x2D :: ds => -(digitsToNat ds : Int)
  | 0x2B :: ds => (digitsToNat ds : Int)
  | ds => (digitsToNat ds : Int)

/-- Number.from_bytes (src/cos.py lines 145-170): no leading strip; the
matched text parses as int exactly when it has no dot, otherwise as
float. -/
def Number_from_bytes (s : Bytes) : PRes (CosV × Bytes) :=
  match matchNumberTok s with
  | none => .perr
  | some (t, rest) =>
    if t.contains 0x2E then
      .ok (.numReal (String.mk (t.map Char.ofNat)), rest)
    else
      .ok (.numInt (intOfTok t), rest)

/-- A byte that continues a Name span: strictly between 0x21 and 0x7E and
not one of the delimiter characters.  The whitespace set of the source is
entirely below 0x21 and is therefore subsumed by the range test. -/
def nameRegular (c : Nat) : Bool :=
  (0x21 < c && c < 0x7E) &&
    !(c == 0x2F || c == 0x25 || c == 0x5B || c == 0x5D || c == 0x3C ||
      c == 0x3E || c == 0x7B || c == 0x7D || c == 0x28 || c == 0x29)

/-- A hex digit character. -/
def isHexDigitC (c : Char) : Bool :=
  (('0' ≤ c && c ≤ '9') || ('A' ≤ c && c ≤ 'F') || ('a' ≤ c && c ≤ 'f'))

/-- The value of a hex digit character. -/
def hexValC (c : Char) : Nat :=
  if '0' ≤ c && c ≤ '9' then c.toNat - '0'.toNat
  else if 'A' ≤ c && c ≤ 'F' then c.toNat - 'A'.toNat + 10
  else c.toNat - 'a'.toNat + 10

/-- The left-to-right non-overlapping substitution of two-hex-digit hash
escapes performed by Name.from_bytes.  A hash that is not followed by two
hex digits does not match the pattern and is left in place unchanged. -/
def nameUnescape : List Char → List Char
  | [] => []
  | '#' :: a :: b :: rest =>
    if isHexDigitC a && isHexDigitC b then
      Char.ofNat (hexValC a * 16 + hexValC b) :: nameUnescape rest
    else '#' :: nameUnescape (a :: b :: rest)
  | c :: rest => c :: nameUnescape rest

/-- Name.from_bytes (src/cos.py lines 182-215): lstrip, require a solidus,
take the span of regular characters, decode it (always ASCII because every
regular byte is strictly between 0x21 and 0x7E), then substitute hash
escapes.  The ValueError handler around the substitution is unreachable:
the pattern only matches valid hex pairs, so the int conversion in the
replacement function never fails. -/
def Name_from_bytes (s : Bytes) : PRes (CosV × Bytes) :=
  let s1 := pyLstrip s
  match s1 with
  | 0x2F :: s2 =>
    let span := s2.takeWhile nameRegular
    let rem := s2.dropWhile nameRegular
    .ok (.name (String.mk (nameUnescape (span.map Char.ofNat))), rem)
  | _ => .perr

/-- A digit character (the str-level regex class backslash-d restricted to
ASCII, which is all that reaches it here). -/
def isDigitC (c : Char) : Bool := '0' ≤ c && c ≤ '9'

/-- The left-to-right substitution of three-digit octal escapes in a
parenthesis string.  The pattern accepts the digits 8 and 9; int(text, 8)
then raises an uncaught ValueError, modelled by none. -/
def octalUnescape : List Char → Option (List Char)
  | [] => some []
  | '\\' :: a :: b :: c :: rest =>
    if isDigitC a && isDigitC b && isDigitC c then
      if a ≤ '7' && b ≤ '7' && c ≤ '7' then
        (octalUnescape rest).map
          (Char.ofNat (((a.toNat - 48) * 8 + (b.toNat - 48)) * 8 + (c.toNat - 48)) :: ·)
      else none
    else (octalUnescape (a :: b :: c :: rest)).map ('\\' :: ·)
  | c :: rest => (octalUnescape rest).map (c :: ·)

/-- utf-8 encoding of a character of code point below 0x800, which covers
every character a decoded span or an octal escape can produce here. -/
def utf8Bytes (c : Char) : Bytes :=
  if c.toNat < 0x80 then [c.toNat]
  else [0xC0 + c.toNat / 64, 0x80 + c.toNat % 64]

/-- The model of str.decode("utf-8") restricted to ASCII input; a byte of
128 or above stands for the escaped UnicodeDecodeError. -/
def decodeAscii (bs : Bytes) : Option (List Char) :=
  if bs.all (· < 0x80) then some (bs.map Char.ofNat) else none

/-- Pairing of characters as zip(s[::2], s[1::2]) produces it: consecutive
disjoint pairs, a trailing odd character silently dropped. -/
def chunk2 : List Char → List (Char × Char)
  | a :: b :: rest => (a, b) :: chunk2 rest
  | _ => []

/-- String.from_bytes (src/cos.py lines 91-136).  Parenthesis form: locate
the first closing parenthesis; when there is none the except ValueError
handler does nothing and control falls off the end of the function, so the
call returns None rather than raising.  Angle bracket form: locate the
first closing angle bracket (ParseError when absent), strip spaces (only
the space character, via str.replace), pair the hex digits - a trailing
odd digit is dropped by zip - and fail with ParseError when a pair is not
valid hex. -/
def String_from_bytes (s : Bytes) : PRes (CosV × Bytes) :=
  let s1 := pyStrip s
  if bstarts [0x28] s1 then
    match idxOf 0x29 s1 with
    | none => .noneret
    | some i =>
      let content := (s1.take i).drop 1
      let remainder := s1.drop (i + 1)
      match decodeAscii content with
      | none => .exn
      | some cs =>
        match octalUnescape cs with
        | none => .exn
        | some cs2 => .ok (.str ((cs2.map utf8Bytes).flatten) (some "utf-8"), remainder)
  else if bstarts [0x3C] s1 then
    match idxOf 0x3E s1 with
    | none => .perr
    | some i =>
      let whole := s1.take (i + 1)
      let remainder := s1.drop (i + 1)
      let content := (whole.drop 1).dropLast
      match decodeAscii content with
      | none => .exn
      | some cs =>
        let cs2 := cs.filter (· ≠ ' ')
        let pairs := chunk2 cs2
        if pairs.all (fun p => isHexDigitC p.1 && isHexDigitC p.2) then
          .ok (.str (pairs.map (fun p => hexValC p.1 * 16 + hexValC p.2)) none, remainder)
        else .perr
  else .perr

/-- The reference token matcher, mirroring the compiled pattern of
Reference.from_bytes: digits, whitespace, digits, whitespace, the letter R.
The character classes of consecutive pieces are disjoint, so the greedy
maximal munch below coincides with the regex. -/
def matchRef (s : Bytes) : Option (Nat × Nat × Bytes) :=
  let s0 := pyLstrip s
  let d1 := s0.takeWhile isDigitB
  let r1 := s0.dropWhile isDigitB
  if d1.isEmpty then none else
  let w1 := r1.takeWhile pyWsB
  let r2 := r1.dropWhile pyWsB
  if w1.isEmpty then none else
  let d2 := r2.takeWhile isDigitB
  let r3 := r2.dropWhile isDigitB
  if d2.isEmpty then none else
  let w2 := r3.takeWhile pyWsB
  let r4 := r3.dropWhile pyWsB
  if w2.isEmpty then none else
  match r4 with
  | 0x52 :: rest => some (digitsToNat d1, digitsToNat d2, rest)
  | _ => none

/-- Reference.from_bytes (src/cos.py lines 366-375). -/
def Reference_from_bytes (s : Bytes) : PRes (CosV × Bytes) :=
  match matchRef s with
  | some (o, g, rest) => .ok (.ref o g, rest)
  | none => .perr

/-! ## Parse layer: the dispatcher and the container decoders -/

/-- Try the next candidate when the previous one raised ParseError; every
other outcome, a success, a returned None or an escaped exception, leaves
the trial loop of parse_cos_value at once. -/
def orTry (a : PRes (CosV × Bytes)) (b : Unit → PRes (CosV × Bytes)) :
    PRes (CosV × Bytes) :=
  match a with
  | .perr => b ()
  | r => r

/-- Insertion into the Python dict of Dictionary.from_bytes: an existing
key is overwritten in place, a new key is appended. -/
def dictInsert : List (String × CosV) → String → CosV → List (String × CosV)
  | [], k, v => [(k, v)]
  | (k', v') :: rest, k, v =>
    if k' == k then (k, v) :: rest else (k', v') :: dictInsert rest k v

/-- The pending work of the mutually recursive container decoders, folded
into one fuel-indexed function so that the recursion is structural. -/
inductive PTask where
  /-- parse_cos_value on the given bytes. -/
  | val (s : Bytes)
  /-- Dictionary.from_bytes on the given bytes. -/
  | dic (s : Bytes)
  /-- The key-value loop of Dictionary.from_bytes. -/
  | dLoop (acc : List (String × CosV)) (s : Bytes)
  /-- Stream.from_bytes on the given bytes. -/
  | strm (s : Bytes)
  /-- Array.from_bytes on the given bytes. -/
  | arr (s : Bytes)
  /-- The element loop of Array.from_bytes. -/
  | aLoop (acc : List CosV) (s : Bytes)

/-- The recursive part of the parser (src/cos.py lines 218-246, 263-295,
318-339 and 378-387).  The dispatcher tries Reference, Stream, Dictionary,
String, Name, Array, Null, Boolean, Number in that order, absorbing only
ParseError; exhausting the candidates raises ParseError.  A None returned
into the tuple unpacking of a container loop becomes a TypeError, an
escaped exception. -/
def runP : Nat → PTask → PRes (CosV × Bytes)
  | 0, _ => .fuelOut
  | fuel + 1, t =>
    match t with
    | .val s =>
      orTry (Reference_from_bytes s) fun _ =>
      orTry (runP fuel (.strm s)) fun _ =>
      orTry (runP fuel (.dic s)) fun _ =>
      orTry (String_from_bytes s) fun _ =>
      orTry (Name_from_bytes s) fun _ =>
      orTry (runP fuel (.arr s)) fun _ =>
      orTry (Null_from_bytes s) fun _ =>
      orTry (Boolean_from_bytes s) fun _ =>
      orTry (Number_from_bytes s) fun _ => .perr
    | .strm s =>
      match runP fuel (.dic s) with
      | .ok (.dict es, rest) =>
        let r := pyLstrip rest
        if bstarts (bytesOfAscii "stream" ++ [0x0A]) r then
          match splitOnce (0x0A :: bytesOfAscii "endstream") (r.drop 7) with
          | some (payload, rem) => .ok (.stream es payload, rem)
          | none => .perr
        else .perr
      | .ok _ => .exn
      | e => e
    | .dic s =>
      let s1 := pyLstrip s
      if bstarts [0x3C, 0x3C] s1 then runP fuel (.dLoop [] (s1.drop 2))
      else .perr
    | .dLoop acc s =>
      let s1 := pyLstrip s
      match Name_from_bytes s1 with
      | .ok (.name k, rest) =>
        match runP fuel (.val (pyLstrip rest)) with
        | .ok (v, rest2) => runP fuel (.dLoop (dictInsert acc k v) rest2)
        | .perr => .perr
        | .noneret => .exn
        | e => e
      | .ok _ => .exn
      | .perr =>
        if bstarts [0x3E, 0x3E] s1 then .ok (.dict acc, s1.drop 2) else .perr
      | .noneret => .exn
      | e => e
    | .arr s =>
      let s1 := pyLstrip s
      if bstarts [0x5B] s1 then runP fuel (.aLoop [] (s1.drop 1))
      else .perr
    | .aLoop acc s =>
      let s1 := pyLstrip s
      match runP fuel (.val s1) with
      | .ok (v, rest) => runP fuel (.aLoop (acc ++ [v]) rest)
      | .perr =>
        if bstarts [0x5D] s1 then .ok (.array acc, s1.drop 1) else .perr
      | .noneret => .exn
      | e => e

/-- parse_cos_value (src/cos.py lines 378-387), fuel-indexed. -/
def parse_cos_value (fuel : Nat) (s : Bytes) : PRes (CosV × Bytes) :=
  runP fuel (.val s)

/-- Array.from_bytes, fuel-indexed. -/
def Array_from_bytes (fuel : Nat) (s : Bytes) : PRes (CosV × Bytes) :=
  runP fuel (.arr s)

/-- Dictionary.from_bytes, fuel-indexed. -/
def Dictionary_from_bytes (fuel : Nat) (s : Bytes) : PRes (CosV × Bytes) :=
  runP fuel (.dic s)

/-- Stream.from_bytes, fuel-indexed. -/
def Stream_from_bytes (fuel : Nat) (s : Bytes) : PRes (CosV × Bytes) :=
  runP fuel (.strm s)

/-! ## Parse layer: span lemmas -/

/-- Splitting takeWhile and dropWhile at a boundary where the predicate
turns false. -/
theorem takeWhile_all_append {p : Nat → Bool} {l : Bytes} {b : Nat} {r : Bytes}
    (hl : ∀ c ∈ l, p c = true) (hb : p b = false) :
    (l ++ b :: r).takeWhile p = l ∧ (l ++ b :: r).dropWhile p = b :: r := by
  induction l with
  | nil => simp [List.takeWhile, List.dropWhile, hb]
  | cons a as ih =>
    have ha : p a = true := hl a (by simp)
    have := ih (fun c hc => hl c (by simp [hc]))
    simp [List.takeWhile, List.dropWhile, ha, this.1, this.2]

theorem digit_not_ws {c : Nat} (h : isDigitB c = true) : pyWsB c = false := by
  simp [isDigitB] at h
  simp [pyWsB]
  omega

theorem ws_not_digit {c : Nat} (h : pyWsB c = true) : isDigitB c = false := by
  simp [pyWsB] at h
  simp [isDigitB]
  omega

/-! ## Claim C4 -/

/-- C4.  The dispatcher parse_cos_value tries the candidate decoders in the
fixed order Reference, Stream, Dictionary, String, Name, Array, Null,
Boolean, Number (see the definition of runP, case val, which mirrors the
types tuple of src/cos.py line 379), absorbing each candidate failure and
returning the first success.  Consequently, for every input consisting of
optional leading whitespace, a nonempty digit run, whitespace, a second
nonempty digit run, whitespace, the byte R and then arbitrary trailing
bytes, decoding yields the single Reference built from the two numbers,
with the remainder beginning right after the R - never two consecutive
Numbers, since Reference is tried before Number and succeeds first. -/
theorem c4_reference_before_number (w d1 w1 d2 w2 rest : Bytes) (fuel : Nat)
    (hw : ∀ c ∈ w, pyWsB c = true)
    (hd1n : d1 ≠ []) (hd1 : ∀ c ∈ d1, isDigitB c = true)
    (hw1n : w1 ≠ []) (hw1 : ∀ c ∈ w1, pyWsB c = true)
    (hd2n : d2 ≠ []) (hd2 : ∀ c ∈ d2, isDigitB c = true)
    (hw2n : w2 ≠ []) (hw2 : ∀ c ∈ w2, pyWsB c = true) :
    parse_cos_value (fuel + 1) (w ++ d1 ++ w1 ++ d2 ++ w2 ++ 0x52 :: rest)
      = .ok (.ref (digitsToNat d1) (digitsToNat d2), rest) := by
  obtain ⟨a1, t1, rfl⟩ : ∃ a t, d1 = a :: t := by
    cases d1 with | nil => exact absurd rfl hd1n | cons a t => exact ⟨a, t, rfl⟩
  obtain ⟨b1, u1, rfl⟩ : ∃ a t, w1 = a :: t := by
    cases w1 with | nil => exact absurd rfl hw1n | cons a t => exact ⟨a, t, rfl⟩
  obtain ⟨a2, t2, rfl⟩ : ∃ a t, d2 = a :: t := by
    cases d2 with | nil => exact absurd rfl hd2n | cons a t => exact ⟨a, t, rfl⟩
  obtain ⟨b2, u2, rfl⟩ : ∃ a t, w2 = a :: t := by
    cases w2 with | nil => exact absurd rfl hw2n | cons a t => exact ⟨a, t, rfl⟩
  have h4 := takeWhile_all_append (p := pyWsB)
    (l := b2 :: u2) (b := 0x52) (r := rest) hw2 (by decide)
  have h3 := takeWhile_all_append (p := isDigitB)
    (l := a2 :: t2) (b := b2) (r := u2 ++ 0x52 :: rest)
    hd2 (ws_not_digit (hw2 b2 (by simp)))
  have h2 := takeWhile_all_append (p := pyWsB)
    (l := b1 :: u1) (b := a2) (r := t2 ++ b2 :: (u2 ++ 0x52 :: rest))
    hw1 (digit_not_ws (hd2 a2 (by simp)))
  have h1 := takeWhile_all_append (p := isDigitB)
    (l := a1 :: t1) (b := b1) (r := u1 ++ a2 :: (t2 ++ b2 :: (u2 ++ 0x52 :: rest)))
    hd1 (ws_not_digit (hw1 b1 (by simp)))
  have h0 := takeWhile_all_append (p := pyWsB)
    (l := w) (b := a1) (r := t1 ++ b1 :: (u1 ++ a2 :: (t2 ++ b2 :: (u2 ++ 0x52 :: rest))))
    hw (digit_not_ws (hd1 a1 (by simp)))
  simp only [List.cons_append, List.append_assoc] at h0 h1 h2 h3 h4
  have hmr : matchRef (w ++ (a1 :: t1) ++ (b1 :: u1) ++ (a2 :: t2) ++ (b2 :: u2) ++ 0x52 :: rest)
      = some (digitsToNat (a1 :: t1), digitsToNat (a2 :: t2), rest) := by
    simp only [matchRef, pyLstrip, List.cons_append, List.append_assoc]
    rw [h0.2, h1.1, h1.2, h2.1, h2.2, h3.1, h3.2, h4.1, h4.2]
    simp [List.isEmpty]
  have hrf : Reference_from_bytes
        (w ++ (a1 :: t1) ++ (b1 :: u1) ++ (a2 :: t2) ++ (b2 :: u2) ++ 0x52 :: rest)
      = .ok (.ref (digitsToNat (a1 :: t1)) (digitsToNat (a2 :: t2)), rest) := by
    simp only [Reference_from_bytes, hmr]
  simp only [parse_cos_value, runP, hrf, orTry]

/-- Witness for C4 at the worked examples of the specification: the bytes
of "1 2 R/Name" decode to Reference(1,2) with remainder "/Name". -/
theorem c4_reference_before_number_witness :
    (([0x31] : Bytes) ≠ [] ∧ ([0x32] : Bytes) ≠ []) ∧
    parse_cos_value 8 ([] ++ [0x31] ++ [0x20] ++ [0x32] ++ [0x20] ++ 0x52 :: bytesOfAscii "/Name")
      = .ok (.ref 1 2, bytesOfAscii "/Name") :=
  ⟨⟨by decide, by decide⟩, by
    exact c4_reference_before_number [] [0x31] [0x20] [0x32] [0x20] (bytesOfAscii "/Name") 7
      (by simp) (by decide) (by decide) (by decide) (by decide)
      (by decide) (by decide) (by decide) (by decide)⟩

/-! ## Claim C5 -/

/-- C5.  Contrary to the claim, an unterminated parenthesis string does not
make the String decoder raise a grammar error: in String.from_bytes the
except ValueError handler around the index call only passes, after which
control falls off the end of the function, so the call returns None; the
dispatcher then returns that None as its own result instead of raising a
ParseError, because only ParseError advances the trial loop.  The bytes of
"(abc" exhibit this: the String decoder and parse_cos_value both end in
the returned-None outcome, not in a ParseError. -/
theorem c5_unterminated_string_returns_none :
    String_from_bytes (bytesOfAscii "(abc") = .noneret ∧
    parse_cos_value 8 (bytesOfAscii "(abc") = .noneret :=
  ⟨rfl, rfl⟩

/-! ## Claim C6 -/

/-- C6.  Contrary to the claim, a hex string literal with an odd number of
hex digits does not fail: the zip of the even- and odd-position characters
in String.from_bytes silently drops the trailing digit.  The bytes of
"<1C2>" decode successfully to the one-byte string 0x1C, the odd digit 2
discarded, rather than raising a malformed-literal error. -/
theorem c6_odd_hex_digit_silently_dropped :
    String_from_bytes (bytesOfAscii "<1C2>") = .ok (.str [0x1C] none, []) ∧
    parse_cos_value 8 (bytesOfAscii "<1C2>") = .ok (.str [0x1C] none, []) :=
  ⟨rfl, rfl⟩

/-! ## Claim C7 -/

/-- C7.  The positive half of the claim holds: valid two-hex-digit hash
escapes are substituted, so "/Name#20" decodes to Name("Name ") and
"/Name#2F" to Name("Name/").  Contrary to the error half of the claim, an
invalid escape is not a fatal grammar error: the substitution pattern of
Name.from_bytes only matches valid hex pairs, its ValueError handler is
unreachable, and a hash not followed by two hex digits is left in the
label unchanged, so "/Name#2G" decodes successfully to Name("Name#2G"). -/
theorem c7_name_invalid_escape_not_fatal :
    Name_from_bytes (bytesOfAscii "/Name#20") = .ok (.name "Name ", []) ∧
    Name_from_bytes (bytesOfAscii "/Name#2F") = .ok (.name "Name/", []) ∧
    Name_from_bytes (bytesOfAscii "/Name#2G") = .ok (.name "Name#2G", []) ∧
    parse_cos_value 8 (bytesOfAscii "/Name#2G") = .ok (.name "Name#2G", []) :=
  ⟨rfl, rfl, rfl, rfl⟩

/-! ## Claim C8 -/

/-- C8.  Null decoding leaves the rest of the input untouched, and for
lowercase inputs Boolean decoding appears to as well, which is what the
tests of the repository exercise.  Contrary to the claim, however,
Boolean.from_bytes lowercases the whole input in the same assignment that
strips it, so the returned remainder is the lowered rest of the input, not
the original bytes: "TRue ASD" decodes to Boolean(true) with remainder
" asd" rather than " ASD".  The corruption is observable downstream: in an
array, "[true /ABC]" parses the following name as "abc". -/
theorem c8_boolean_lowercases_remainder :
    parse_cos_value 8 (bytesOfAscii "true asd") = .ok (.boolean true, bytesOfAscii " asd") ∧
    parse_cos_value 8 (bytesOfAscii "NUll Asd") = .ok (.null, bytesOfAscii " Asd") ∧
    parse_cos_value 8 (bytesOfAscii "TRue ASD") = .ok (.boolean true, bytesOfAscii " asd") ∧
    bytesOfAscii " asd" ≠ bytesOfAscii " ASD" ∧
    parse_cos_value 16 (bytesOfAscii "[true /ABC]")
      = .ok (.array [.boolean true, .name "abc"], []) :=
  ⟨rfl, rfl, rfl, by decide, rfl⟩

/-! ## Claim C9: the stream payload decoder -/

/-- Lookup in the stream dictionary, as Dictionary getitem performs it. -/
def dictGet (es : List (String × CosV)) (k : String) : Option CosV :=
  match es with
  | [] => none
  | (k', v) :: rest => if k' == k then some v else dictGet rest k

/-- The outcome of Stream.decode. -/
inductive DRes where
  | ok (bs : Bytes)
  /-- A raised NotImplementedError naming the filter. -/
  | notImplementedErr (label : String)
  /-- An escaped AttributeError. -/
  | attrError

/-- Stream.decode (src/cos.py lines 348-356), with the external
zlib.decompress passed in as a function.  When the Filter entry is a Name
other than FlateDecode, the raise statement first formats its message by
reading the value attribute of the Name - which a Name does not have (its
field is label) - so an AttributeError escapes before the
NotImplementedError is ever constructed; when the Filter entry is not a
Name, reading its label attribute in the comparison fails the same way. -/
def Stream_decode (zlibDecompress : Bytes → Bytes)
    (stream_dict : List (String × CosV)) (value : Bytes) : DRes :=
  match dictGet stream_dict "Filter" with
  | none => .ok value
  | some (.name l) =>
    if l == "FlateDecode" then .ok (zlibDecompress value)
    else .attrError
  | some _ => .attrError

/-- C9.  Two thirds of the claim hold: with no Filter entry decode returns
the raw payload unchanged, and with Filter the Name FlateDecode it returns
the deflate-decompressed bytes (the decompressor is external to the
repository and passed in abstractly).  Contrary to the final third, any
other filter name does not produce the distinct unsupported-filter error:
formatting the NotImplementedError message reads the nonexistent value
attribute of the Name, so decode crashes with an AttributeError instead,
shown here for the filter name LZWDecode. -/
theorem c9_unsupported_filter_crashes (zlibDecompress : Bytes → Bytes) (payload : Bytes) :
    Stream_decode zlibDecompress [] payload = .ok payload ∧
    Stream_decode zlibDecompress [("Length", .numInt 10)] payload = .ok payload ∧
    Stream_decode zlibDecompress [("Filter", .name "FlateDecode")] payload
      = .ok (zlibDecompress payload) ∧
    Stream_decode zlibDecompress [("Filter", .name "LZWDecode")] payload
      = .attrError ∧
    ∀ msg, Stream_decode zlibDecompress [("Filter", .name "LZWDecode")] payload
      ≠ .notImplementedErr msg :=
  ⟨rfl, rfl, rfl, rfl, fun _ h => by cases h⟩

/-! ## Resolver layer: the store model

Python parse trees are graphs of heap objects; replace_references mutates
child slots in place, assigning the shared object of the lookup table.
The embedding makes the heap explicit: nodes are addressed by a NodeId,
an ObjStore maps ids to node data, and composite data holds the ids of the
children.  Replacing a slot writes a table node id into it; the target
subtree is never copied, exactly as assigning a Python object reference. -/

/-- The address of a heap node. -/
abbrev NodeId := Nat

/-- The data of one heap node, mirroring the CosValue subclasses: a
composite holds the node ids of its children. -/
inductive NodeData where
  | null
  | boolean (value : Bool)
  | numInt (value : Int)
  | numReal (text : String)
  | str (value : Bytes)
  | name (label : String)
  | array (elements : List NodeId)
  | dict (entries : List (String × NodeId))
  | stream (sdict : NodeId) (value : Bytes)
  | ref (objNum genNum : Nat)
deriving DecidableEq

/-- The heap: an association list from node ids to node data. -/
abbrev ObjStore := List (NodeId × NodeData)

/-- Read a node. -/
def storeGet (σ : ObjStore) (n : NodeId) : Option NodeData :=
  match σ with
  | [] => none
  | (m, d) :: rest => if m == n then some d else storeGet rest n

/-- Overwrite a node in place (append when absent, which never happens on
the well-formed stores of the theorems). -/
def storeSet (σ : ObjStore) (n : NodeId) (d : NodeData) : ObjStore :=
  match σ with
  | [] => [(n, d)]
  | (m, d') :: rest => if m == n then (m, d) :: rest else (m, d') :: storeSet rest n d

/-- The identity-to-node lookup table built by Body.resolve_references:
one entry per indirect object, identity to the node id of its parsed
content. -/
abbrev RefTable := List ((Nat × Nat) × NodeId)

/-- Table lookup by identity. -/
def findRef (refs : RefTable) (o g : Nat) : Option NodeId :=
  match refs with
  | [] => none
  | ((o', g'), t) :: rest => if o' == o && g' == g then some t else findRef rest o g

/-- The error that aborts resolution. -/
inductive RErr where
  /-- The ParseError raised on a reference whose identity is absent. -/
  | dangling (objNum genNum : Nat)
  /-- Model artifact: a child node id not present in the store. -/
  | badStore
  /-- Model artifact: the recursion budget ran out. -/
  | fuelOut
deriving DecidableEq

/-- The isinstance(element, Reference) test of the slot loops, with the
identity of the Reference extracted. -/
def refOf (σ : ObjStore) (c : NodeId) : Option (Nat × Nat) :=
  match storeGet σ c with
  | some (.ref o g) => some (o, g)
  | _ => none

/-- The slot loop shared by Array.replace_references and
Dictionary.replace_references (src/cos.py lines 252-260 and 301-309): a
child that is a Reference has its slot overwritten with the node id the
table maps its identity to - a shared handle, no copy - or raises on an
absent identity; every other child is recursed into by the step function.
Returns the threaded store and the new child list. -/
def goChildren (step : ObjStore → NodeId → Except RErr ObjStore) (refs : RefTable) :
    ObjStore → List NodeId → Except RErr (ObjStore × List NodeId)
  | σ, [] => .ok (σ, [])
  | σ, c :: cs =>
    match refOf σ c with
    | some (o, g) =>
      match findRef refs o g with
      | some t =>
        match goChildren step refs σ cs with
        | .ok (σ', cs') => .ok (σ', t :: cs')
        | .error e => .error e
      | none => .error (.dangling o g)
    | none =>
      match step σ c with
      | .ok σ' =>
        match goChildren step refs σ' cs with
        | .ok (σ'', cs') => .ok (σ'', c :: cs')
        | .error e => .error e
      | .error e => .error e

/-- replace_references on one node (src/cos.py lines 39-40, 252-260,
301-309, 345-346): an Array or Dictionary runs the slot loop over its
children and writes back its updated child list; a Stream delegates to its
stream dictionary without touching its own fields; every leaf, Reference
included, does nothing.  Fuel-indexed to make the recursion structural;
the theorems show fuel at the tree depth always suffices. -/
def replaceRefsNode : Nat → RefTable → ObjStore → NodeId → Except RErr ObjStore
  | 0, _, _, _ => .error .fuelOut
  | fuel + 1, refs, σ, n =>
    match storeGet σ n with
    | none => .error .badStore
    | some (.array es) =>
      match goChildren (replaceRefsNode fuel refs) refs σ es with
      | .ok (σ', es') => .ok (storeSet σ' n (.array es'))
      | .error e => .error e
    | some (.dict es) =>
      match goChildren (replaceRefsNode fuel refs) refs σ (es.map Prod.snd) with
      | .ok (σ', vs) => .ok (storeSet σ' n (.dict (List.zip (es.map Prod.fst) vs)))
      | .error e => .error e
    | some (.stream sd _) => replaceRefsNode fuel refs σ sd
    | some _ => .ok σ

/-- The loop of Body.resolve_references over the objects of the table. -/
def resolveObjects (fuel : Nat) (refs : RefTable) :
    ObjStore → List ((Nat × Nat) × NodeId) → Except RErr ObjStore
  | σ, [] => .ok σ
  | σ, (_, n) :: rest =>
    match replaceRefsNode fuel refs σ n with
    | .ok σ' => resolveObjects fuel refs σ' rest
    | .error e => .error e

/-- Body.resolve_references (src/parse.py lines 69-76): build the lookup
from every object identity to the node of its parsed content - the table
itself - then run replace_references on every object tree against it. -/
def resolve_references (fuel : Nat) (objs : RefTable) (σ : ObjStore) :
    Except RErr ObjStore :=
  resolveObjects fuel objs σ objs

/-! ## Resolver layer: structural predicates on stores -/

/-- The child node ids of one node datum, in the order the replacement
traverses them. -/
def childIds : NodeData → List NodeId
  | .array es => es
  | .dict es => es.map Prod.snd
  | .stream sd _ => [sd]
  | _ => []

/-- The child ids of the node stored at n. -/
def childIdsAt (σ : ObjStore) (n : NodeId) : List NodeId :=
  match storeGet σ n with
  | some d => childIds d
  | none => []

/-- The nodes of the subgraph under n, to depth budget d. -/
def nodesLe (σ : ObjStore) : Nat → NodeId → List NodeId
  | 0, n => [n]
  | d + 1, n => n :: ((childIdsAt σ n).map (nodesLe σ d)).flatten

/-- The subgraph under n is present in the store and bounded by depth d. -/
def structLe (σ : ObjStore) : Nat → NodeId → Bool
  | 0, _ => false
  | d + 1, n =>
    match storeGet σ n with
    | none => false
    | some dat => (childIds dat).all (structLe σ d)

/-- Some slot of a composite in the subgraph under n holds a Reference
whose identity is absent from the table.  A Reference at n itself is not a
slot: replace_references on a bare Reference is a no-op. -/
def hasDanglingLe (σ : ObjStore) (refs : RefTable) : Nat → NodeId → Bool
  | 0, _ => false
  | d + 1, n =>
    match storeGet σ n with
    | some (.array es) =>
      es.any (fun c =>
        match refOf σ c with
        | some (o, g) => (findRef refs o g).isNone
        | none => hasDanglingLe σ refs d c)
    | some (.dict es) =>
      (es.map Prod.snd).any (fun c =>
        match refOf σ c with
        | some (o, g) => (findRef refs o g).isNone
        | none => hasDanglingLe σ refs d c)
    | some (.stream sd _) => hasDanglingLe σ refs d sd
    | _ => false

/-- What one slot becomes: a Reference slot is rewritten to the node id
the table maps its identity to, every other slot is left in place. -/
def substSlot (σ : ObjStore) (refs : RefTable) (c : NodeId) : NodeId :=
  match refOf σ c with
  | some (o, g) => (findRef refs o g).getD c
  | none => c

/-- The data a node holds after resolution, computed from the original
store: composites get their Reference slots rewritten to the shared table
nodes, everything else - stream payloads included - is unchanged. -/
def expectedData (σ : ObjStore) (refs : RefTable) (n : NodeId) : Option NodeData :=
  match storeGet σ n with
  | some (.array es) => some (.array (es.map (substSlot σ refs)))
  | some (.dict es) => some (.dict (es.map (fun e => (e.1, substSlot σ refs e.2))))
  | other => other

/-- The children enumerated by the children property: an Array yields its
elements, a Dictionary its values, a Stream the children of its stream
dictionary, every leaf nothing.  The fuel bounds the stream delegation
chain. -/
def pyChildren (σ : ObjStore) : Nat → NodeId → List NodeId
  | 0, _ => []
  | f + 1, n =>
    match storeGet σ n with
    | some (.array es) => es
    | some (.dict es) => es.map Prod.snd
    | some (.stream sd _) => pyChildren σ f sd
    | _ => []

/-! ## Resolver layer: store and membership lemmas -/

theorem storeGet_set_self (σ : ObjStore) (n : NodeId) (d : NodeData) :
    storeGet (storeSet σ n d) n = some d := by
  induction σ with
  | nil => simp [storeSet, storeGet]
  | cons e rest ih =>
    obtain ⟨m, d'⟩ := e
    by_cases h : m = n
    · subst h
      simp [storeSet, storeGet]
    · simp [storeSet, storeGet, h, ih]

theorem storeGet_set_ne (σ : ObjStore) (n m : NodeId) (d : NodeData) (h : m ≠ n) :
    storeGet (storeSet σ n d) m = storeGet σ m := by
  have hnm : (n == m) = false := beq_eq_false_iff_ne.mpr (Ne.symm h)
  induction σ with
  | nil => simp [storeSet, storeGet, hnm]
  | cons e rest ih =>
    obtain ⟨k, d'⟩ := e
    by_cases hk : k = n
    · subst hk
      simp [storeSet, storeGet, hnm]
    · have hkn : (k == n) = false := beq_eq_false_iff_ne.mpr hk
      simp [storeSet, storeGet, hkn, ih]

theorem self_mem_nodesLe (σ : ObjStore) (d : Nat) (n : NodeId) :
    n ∈ nodesLe σ d n := by
  cases d <;> simp [nodesLe]

theorem mem_nodesLe_child (σ : ObjStore) {d : Nat} {n c m : NodeId}
    (hc : c ∈ childIdsAt σ n) (hm : m ∈ nodesLe σ d c) :
    m ∈ nodesLe σ (d + 1) n := by
  simp only [nodesLe, List.mem_cons, List.mem_flatten]
  exact Or.inr ⟨nodesLe σ d c, List.mem_map_of_mem _ hc, hm⟩

theorem child_mem_nodesLe (σ : ObjStore) {d : Nat} {n c : NodeId}
    (hc : c ∈ childIdsAt σ n) : c ∈ nodesLe σ (d + 1) n :=
  mem_nodesLe_child σ hc (self_mem_nodesLe σ d c)

theorem nodesLe_of_leaf {σ : ObjStore} {c : NodeId} (h : childIdsAt σ c = [])
    (d : Nat) : nodesLe σ d c = [c] := by
  cases d <;> simp [nodesLe, h]

/-- Pointwise congruence helpers. -/
theorem map_congr_mem {α β : Type} {l : List α} {f g : α → β}
    (h : ∀ a ∈ l, f a = g a) : l.map f = l.map g := by
  induction l with
  | nil => rfl
  | cons a t ih =>
    simp only [List.map_cons, h a (by simp)]
    rw [ih (fun b hb => h b (by simp [hb]))]

theorem all_congr_mem {α : Type} {l : List α} {f g : α → Bool}
    (h : ∀ a ∈ l, f a = g a) : l.all f = l.all g := by
  induction l with
  | nil => rfl
  | cons a t ih =>
    simp only [List.all_cons, h a (by simp)]
    rw [ih (fun b hb => h b (by simp [hb]))]

theorem any_congr_mem {α : Type} {l : List α} {f g : α → Bool}
    (h : ∀ a ∈ l, f a = g a) : l.any f = l.any g := by
  induction l with
  | nil => rfl
  | cons a t ih =>
    simp only [List.any_cons, h a (by simp)]
    rw [ih (fun b hb => h b (by simp [hb]))]

/-- Agreement of two stores on a set of nodes. -/
def Agrees (σ σ2 : ObjStore) (L : List NodeId) : Prop :=
  ∀ m ∈ L, storeGet σ2 m = storeGet σ m

theorem Agrees.mono {σ σ2 : ObjStore} {L L' : List NodeId}
    (h : Agrees σ σ2 L) (hsub : ∀ m ∈ L', m ∈ L) : Agrees σ σ2 L' :=
  fun m hm => h m (hsub m hm)

theorem childIdsAt_congr {σ σ2 : ObjStore} {d : Nat} {n : NodeId}
    (h : Agrees σ σ2 (nodesLe σ d n)) : childIdsAt σ2 n = childIdsAt σ n := by
  unfold childIdsAt
  rw [h n (self_mem_nodesLe σ d n)]

theorem nodesLe_congr {σ σ2 : ObjStore} :
    ∀ (d : Nat) (n : NodeId), Agrees σ σ2 (nodesLe σ d n) →
      nodesLe σ2 d n = nodesLe σ d n := by
  intro d
  induction d with
  | zero => intro n _; rfl
  | succ d ih =>
    intro n h
    have hch : childIdsAt σ2 n = childIdsAt σ n := childIdsAt_congr h
    simp only [nodesLe, hch]
    congr 1
    congr 1
    exact map_congr_mem (fun c hc =>
      ih c (h.mono (fun m hm => mem_nodesLe_child σ hc hm)))

theorem structLe_congr {σ σ2 : ObjStore} :
    ∀ (d : Nat) (n : NodeId), Agrees σ σ2 (nodesLe σ d n) →
      structLe σ2 d n = structLe σ d n := by
  intro d
  induction d with
  | zero => intro n _; rfl
  | succ d ih =>
    intro n h
    have hg : storeGet σ2 n = storeGet σ n := h n (self_mem_nodesLe σ (d + 1) n)
    simp only [structLe, hg]
    cases hget : storeGet σ n with
    | none => rfl
    | some dat =>
      have hch : childIds dat = childIdsAt σ n := by simp [childIdsAt, hget]
      exact all_congr_mem (fun c hc =>
        ih c (h.mono (fun m hm => mem_nodesLe_child σ (hch ▸ hc) hm)))

/-- What the slot loop does to the slot of child c: dangling when c is a
Reference with an absent identity, otherwise whatever recursion finds. -/
def slotDangling (σ : ObjStore) (refs : RefTable) (d : Nat) (c : NodeId) : Bool :=
  match refOf σ c with
  | some (o, g) => (findRef refs o g).isNone
  | none => hasDanglingLe σ refs d c

theorem hasDangling_array {σ : ObjStore} {refs : RefTable} {d : Nat} {n : NodeId}
    {es : List NodeId} (h : storeGet σ n = some (.array es)) :
    hasDanglingLe σ refs (d + 1) n = es.any (slotDangling σ refs d) := by
  simp only [hasDanglingLe, h]
  refine any_congr_mem (fun c _ => ?_)
  unfold slotDangling
  cases refOf σ c with
  | none => rfl
  | some p => obtain ⟨o, g⟩ := p; rfl

theorem hasDangling_dict {σ : ObjStore} {refs : RefTable} {d : Nat} {n : NodeId}
    {es : List (String × NodeId)} (h : storeGet σ n = some (.dict es)) :
    hasDanglingLe σ refs (d + 1) n = (es.map Prod.snd).any (slotDangling σ refs d) := by
  simp only [hasDanglingLe, h]
  refine any_congr_mem (fun c _ => ?_)
  unfold slotDangling
  cases refOf σ c with
  | none => rfl
  | some p => obtain ⟨o, g⟩ := p; rfl

theorem hasDangling_stream {σ : ObjStore} {refs : RefTable} {d : Nat} {n sd : NodeId}
    {bs : Bytes} (h : storeGet σ n = some (.stream sd bs)) :
    hasDanglingLe σ refs (d + 1) n = hasDanglingLe σ refs d sd := by
  simp only [hasDanglingLe, h]

theorem refOf_congr {σ σ2 : ObjStore} {c : NodeId}
    (h : storeGet σ2 c = storeGet σ c) : refOf σ2 c = refOf σ c := by
  simp only [refOf, h]

theorem hasDanglingLe_congr {σ σ2 : ObjStore} {refs : RefTable} :
    ∀ (d : Nat) (n : NodeId), Agrees σ σ2 (nodesLe σ d n) →
      hasDanglingLe σ2 refs d n = hasDanglingLe σ refs d n := by
  intro d
  induction d with
  | zero => intro n _; rfl
  | succ d ih =>
    intro n h
    have hg : storeGet σ2 n = storeGet σ n := h n (self_mem_nodesLe σ (d + 1) n)
    simp only [hasDanglingLe, hg]
    cases hget : storeGet σ n with
    | none => rfl
    | some dat =>
      have hch : childIds dat = childIdsAt σ n := by simp [childIdsAt, hget]
      cases dat with
      | array es =>
        refine any_congr_mem (fun c hc => ?_)
        have hcmem : c ∈ childIdsAt σ n := hch ▸ hc
        have hagr : Agrees σ σ2 (nodesLe σ d c) :=
          h.mono (fun m hm => mem_nodesLe_child σ hcmem hm)
        have hgc : storeGet σ2 c = storeGet σ c := hagr c (self_mem_nodesLe σ d c)
        rw [refOf_congr hgc]
        cases refOf σ c with
        | none => exact ih c hagr
        | some p => obtain ⟨o, g⟩ := p; rfl
      | dict es =>
        refine any_congr_mem (fun c hc => ?_)
        have hcmem : c ∈ childIdsAt σ n := hch ▸ hc
        have hagr : Agrees σ σ2 (nodesLe σ d c) :=
          h.mono (fun m hm => mem_nodesLe_child σ hcmem hm)
        have hgc : storeGet σ2 c = storeGet σ c := hagr c (self_mem_nodesLe σ d c)
        rw [refOf_congr hgc]
        cases refOf σ c with
        | none => exact ih c hagr
        | some p => obtain ⟨o, g⟩ := p; rfl
      | stream sd bs =>
        have hsd : sd ∈ childIdsAt σ n := by simp [childIdsAt, hget, childIds]
        exact ih sd (h.mono (fun m hm => mem_nodesLe_child σ hsd hm))
      | null => rfl
      | boolean b => rfl
      | numInt v => rfl
      | numReal t => rfl
      | str v => rfl
      | name l => rfl
      | ref o g => rfl

theorem slotDangling_congr {σ σ2 : ObjStore} {refs : RefTable} {d : Nat} {c : NodeId}
    (h : Agrees σ σ2 (nodesLe σ d c)) :
    slotDangling σ2 refs d c = slotDangling σ refs d c := by
  have hg : storeGet σ2 c = storeGet σ c := h c (self_mem_nodesLe σ d c)
  simp only [slotDangling, refOf_congr hg]
  cases refOf σ c with
  | none => exact hasDanglingLe_congr d c h
  | some p => obtain ⟨o, g⟩ := p; rfl

theorem substSlot_congr {σ σ2 : ObjStore} {refs : RefTable} {c : NodeId}
    (h : storeGet σ2 c = storeGet σ c) :
    substSlot σ2 refs c = substSlot σ refs c := by
  simp only [substSlot, refOf_congr h]

/-- Every node of a bounded tree roots a bounded tree whose nodes stay
inside the outer node list. -/
theorem nodes_closure {σ : ObjStore} :
    ∀ (d : Nat) (n m : NodeId), structLe σ d n = true → m ∈ nodesLe σ d n →
      ∃ b, b ≤ d ∧ structLe σ b m = true ∧
        (∀ x ∈ nodesLe σ b m, x ∈ nodesLe σ d n) := by
  intro d
  induction d with
  | zero => intro n m hs _; simp [structLe] at hs
  | succ d ih =>
    intro n m hs hm
    simp only [nodesLe, List.mem_cons, List.mem_flatten] at hm
    rcases hm with rfl | ⟨L, hL, hmL⟩
    · exact ⟨d + 1, le_refl _, hs, fun x hx => hx⟩
    · obtain ⟨c, hc, rfl⟩ := List.mem_map.mp hL
      have hsc : structLe σ d c = true := by
        simp only [structLe] at hs
        cases hget : storeGet σ n with
        | none => rw [hget] at hs; exact absurd hs (by simp)
        | some dat =>
          rw [hget] at hs
          have : c ∈ childIds dat := by
            simpa [childIdsAt, hget] using hc
          exact List.all_eq_true.mp hs c this
      obtain ⟨b, hb, hsm, hsub⟩ := ih c m hsc hmL
      exact ⟨b, by omega, hsm, fun x hx => mem_nodesLe_child σ hc (hsub x hx)⟩

/-- Agreement on a bounded tree extends to the post-resolution data of
every node in it. -/
theorem expectedData_congr {σ σ2 : ObjStore} {refs : RefTable} {d : Nat}
    {n m : NodeId} (hs : structLe σ d n = true)
    (h : Agrees σ σ2 (nodesLe σ d n)) (hm : m ∈ nodesLe σ d n) :
    expectedData σ2 refs m = expectedData σ refs m := by
  obtain ⟨b, _, hsm, hsub⟩ := nodes_closure d n m hs hm
  have hagr : Agrees σ σ2 (nodesLe σ b m) := h.mono hsub
  have hg : storeGet σ2 m = storeGet σ m := h m hm
  simp only [expectedData, hg]
  cases hget : storeGet σ m with
  | none => rfl
  | some dat =>
    cases b with
    | zero => simp [structLe] at hsm
    | succ b =>
      have hchild : ∀ c ∈ childIds dat, storeGet σ2 c = storeGet σ c := by
        intro c hc
        have hcmem : c ∈ childIdsAt σ m := by simp [childIdsAt, hget, hc]
        exact hagr c (child_mem_nodesLe σ hcmem)
      cases dat with
      | array es =>
        simp only [Option.some.injEq, NodeData.array.injEq]
        exact map_congr_mem (fun c hc => substSlot_congr (hchild c hc))
      | dict es =>
        simp only [Option.some.injEq, NodeData.dict.injEq]
        refine map_congr_mem (fun e he => ?_)
        have : e.2 ∈ childIds (NodeData.dict es) := by
          simp only [childIds]
          exact List.mem_map_of_mem _ he
        rw [substSlot_congr (hchild e.2 this)]
      | null => rfl
      | boolean b2 => rfl
      | numInt v => rfl
      | numReal t => rfl
      | str v => rfl
      | name l => rfl
      | stream sd bs => rfl
      | ref o g => rfl

theorem refOf_some {σ : ObjStore} {c : NodeId} {o g : Nat}
    (h : refOf σ c = some (o, g)) : storeGet σ c = some (.ref o g) := by
  unfold refOf at h
  cases hget : storeGet σ c with
  | none => rw [hget] at h; cases h
  | some dc =>
    rw [hget] at h
    cases dc <;> simp_all

theorem slotDangling_refCase {σ : ObjStore} {refs : RefTable} {d : Nat} {c : NodeId}
    {o g : Nat} (h : refOf σ c = some (o, g)) :
    slotDangling σ refs d c = (findRef refs o g).isNone := by
  simp only [slotDangling, h]

theorem slotDangling_nonref {σ : ObjStore} {refs : RefTable} {d : Nat} {c : NodeId}
    (h : refOf σ c = none) :
    slotDangling σ refs d c = hasDanglingLe σ refs d c := by
  simp only [slotDangling, h]

theorem substSlot_refCase {σ : ObjStore} {refs : RefTable} {c : NodeId}
    {o g : Nat} (h : refOf σ c = some (o, g)) :
    substSlot σ refs c = (findRef refs o g).getD c := by
  simp only [substSlot, h]

theorem substSlot_nonref {σ : ObjStore} {refs : RefTable} {c : NodeId}
    (h : refOf σ c = none) : substSlot σ refs c = c := by
  simp only [substSlot, h]

/-- The conclusion of the master lemma for one node at depth budget d and
the given fuel: on a duplicate-free bounded tree, replace_references
either succeeds - exactly the Reference slots in the tree rewritten to the
shared table nodes, every node outside the tree untouched - or, exactly
when some slot holds a Reference to an absent identity, raises the
dangling error naming an absent identity. -/
def NodeOk (refs : RefTable) (fuel d : Nat) : Prop :=
  ∀ σ n, structLe σ d n = true → (nodesLe σ d n).Nodup →
    (hasDanglingLe σ refs d n = false →
      ∃ σ', replaceRefsNode fuel refs σ n = .ok σ'
        ∧ (∀ m, m ∉ nodesLe σ d n → storeGet σ' m = storeGet σ m)
        ∧ (∀ m, m ∈ nodesLe σ d n → storeGet σ' m = expectedData σ refs m)) ∧
    (hasDanglingLe σ refs d n = true →
      ∃ o g, replaceRefsNode fuel refs σ n = .error (.dangling o g)
        ∧ findRef refs o g = none)

/-- The slot loop version of the master lemma. -/
theorem goChildren_master {refs : RefTable} {fuel d : Nat}
    (hnode : NodeOk refs fuel d) :
    ∀ (cs : List NodeId) (σ : ObjStore),
      (∀ c ∈ cs, structLe σ d c = true) →
      ((cs.map (nodesLe σ d)).flatten).Nodup →
      ((∀ c ∈ cs, slotDangling σ refs d c = false) →
        ∃ σ', goChildren (replaceRefsNode fuel refs) refs σ cs
            = .ok (σ', cs.map (substSlot σ refs))
          ∧ (∀ m, m ∉ ((cs.map (nodesLe σ d)).flatten) → storeGet σ' m = storeGet σ m)
          ∧ (∀ m, m ∈ ((cs.map (nodesLe σ d)).flatten) →
              storeGet σ' m = expectedData σ refs m)) ∧
      ((∃ c ∈ cs, slotDangling σ refs d c = true) →
        ∃ o g, goChildren (replaceRefsNode fuel refs) refs σ cs
            = .error (.dangling o g) ∧ findRef refs o g = none) := by
  intro cs
  induction cs with
  | nil =>
    intro σ _ _
    constructor
    · intro _
      exact ⟨σ, rfl, fun m _ => rfl, fun m hm => absurd hm (by simp)⟩
    · rintro ⟨c, hc, _⟩
      simp at hc
  | cons c cs ih =>
    intro σ hstruct hnodup
    have hsc : structLe σ d c = true := hstruct c (by simp)
    rw [List.map_cons, List.flatten_cons, List.nodup_append] at hnodup
    obtain ⟨hnodc, hnodtail, hdisj⟩ := hnodup
    cases hro : refOf σ c with
    | some p =>
      obtain ⟨o, g⟩ := p
      have hget : storeGet σ c = some (.ref o g) := refOf_some hro
      have hleafc : childIdsAt σ c = [] := by simp [childIdsAt, hget, childIds]
      have hnodes_c : ∀ d', nodesLe σ d' c = [c] := nodesLe_of_leaf hleafc
      cases hfr : findRef refs o g with
      | some t =>
        have tail := ih σ (fun c' h' => hstruct c' (by simp [h'])) hnodtail
        constructor
        · intro hclean
          obtain ⟨σ', he, hframe, hchar⟩ :=
            tail.1 (fun c' h' => hclean c' (by simp [h']))
          refine ⟨σ', ?_, ?_, ?_⟩
          · simp only [goChildren, hro, hfr, he, List.map_cons,
              substSlot_refCase hro, Option.getD_some]
          · intro m hm
            rw [List.map_cons, List.flatten_cons, List.mem_append] at hm
            push_neg at hm
            exact hframe m hm.2
          · intro m hm
            rw [List.map_cons, List.flatten_cons, List.mem_append] at hm
            rcases hm with hm | hm
            · rw [hnodes_c d] at hm
              simp at hm
              have hcnot : c ∉ (cs.map (nodesLe σ d)).flatten := by
                intro hin
                exact hdisj (by rw [hnodes_c d]; simp) hin
              rw [hm, hframe c hcnot, hget]
              simp [expectedData, hget]
            · exact hchar m hm
        · rintro ⟨c', hc', hdang⟩
          rcases List.mem_cons.mp hc' with rfl | hc'
          · rw [slotDangling_refCase hro, hfr] at hdang
            simp at hdang
          · obtain ⟨o', g', he, habs⟩ := tail.2 ⟨c', hc', hdang⟩
            exact ⟨o', g', by simp only [goChildren, hro, hfr, he], habs⟩
      | none =>
        constructor
        · intro hclean
          have := hclean c (by simp)
          rw [slotDangling_refCase hro, hfr] at this
          simp at this
        · intro _
          exact ⟨o, g, by simp only [goChildren, hro, hfr], hfr⟩
    | none =>
      have node := hnode σ c hsc hnodc
      by_cases hdc : hasDanglingLe σ refs d c = true
      · obtain ⟨o, g, he, habs⟩ := node.2 hdc
        constructor
        · intro hclean
          have := hclean c (by simp)
          rw [slotDangling_nonref hro, hdc] at this
          cases this
        · intro _
          refine ⟨o, g, ?_, habs⟩
          simp only [goChildren, hro, he]
      · have hdc' : hasDanglingLe σ refs d c = false := by
          simpa using hdc
        obtain ⟨σ1, he1, hframe1, hchar1⟩ := node.1 hdc'
        have hagtail : Agrees σ σ1 ((cs.map (nodesLe σ d)).flatten) := by
          intro m hm
          exact hframe1 m (fun hmc => hdisj hmc hm)
        have hagchild : ∀ c' ∈ cs, Agrees σ σ1 (nodesLe σ d c') := by
          intro c' h'
          exact hagtail.mono (fun m hm =>
            List.mem_flatten.mpr ⟨nodesLe σ d c', List.mem_map_of_mem _ h', hm⟩)
        have hstruct1 : ∀ c' ∈ cs, structLe σ1 d c' = true := by
          intro c' h'
          rw [structLe_congr d c' (hagchild c' h')]
          exact hstruct c' (by simp [h'])
        have hflat1 : (cs.map (nodesLe σ1 d)).flatten = (cs.map (nodesLe σ d)).flatten := by
          congr 1
          exact map_congr_mem (fun c' h' => nodesLe_congr d c' (hagchild c' h'))
        have hnodtail1 : ((cs.map (nodesLe σ1 d)).flatten).Nodup := by
          rw [hflat1]; exact hnodtail
        have tail := ih σ1 hstruct1 hnodtail1
        have hsubst1 : cs.map (substSlot σ1 refs) = cs.map (substSlot σ refs) :=
          map_congr_mem (fun c' h' =>
            substSlot_congr ((hagchild c' h') c' (self_mem_nodesLe σ d c')))
        constructor
        · intro hclean
          obtain ⟨σ2, he2, hframe2, hchar2⟩ := tail.1 (by
            intro c' h'
            rw [slotDangling_congr (hagchild c' h')]
            exact hclean c' (by simp [h']))
          refine ⟨σ2, ?_, ?_, ?_⟩
          · rw [List.map_cons, substSlot_nonref hro]
            simp only [goChildren, hro, he1, he2, hsubst1]
          · intro m hm
            rw [List.map_cons, List.flatten_cons, List.mem_append] at hm
            push_neg at hm
            have h2 : storeGet σ2 m = storeGet σ1 m := by
              apply hframe2
              rw [hflat1]
              exact hm.2
            rw [h2]
            exact hframe1 m hm.1
          · intro m hm
            rw [List.map_cons, List.flatten_cons, List.mem_append] at hm
            rcases hm with hm | hm
            · have hmnot : m ∉ (cs.map (nodesLe σ1 d)).flatten := by
                rw [hflat1]
                exact fun hin => hdisj hm hin
              rw [hframe2 m hmnot]
              exact hchar1 m hm
            · have h2 := hchar2 m (by rw [hflat1]; exact hm)
              rw [h2]
              obtain ⟨L, hL, hmL⟩ := List.mem_flatten.mp hm
              obtain ⟨c', h', rfl⟩ := List.mem_map.mp hL
              exact expectedData_congr (hstruct c' (by simp [h'])) (hagchild c' h') hmL
        · rintro ⟨c', hc', hdang⟩
          rcases List.mem_cons.mp hc' with rfl | hc'
          · rw [slotDangling_nonref hro, hdc'] at hdang
            cases hdang
          · obtain ⟨o', g', he2, habs⟩ := tail.2 ⟨c', hc', by
              rw [slotDangling_congr (hagchild c' hc')]
              exact hdang⟩
            refine ⟨o', g', ?_, habs⟩
            simp only [goChildren, hro, he1, he2]

theorem zip_map_fst_map_snd {α β γ : Type} (es : List (α × β)) (f : β → γ) :
    List.zip (es.map Prod.fst) ((es.map Prod.snd).map f)
      = es.map (fun e => (e.1, f e.2)) := by
  induction es with
  | nil => rfl
  | cons e t ih => simp only [List.map_cons, List.zip_cons_cons, ih]

/-- The master lemma: at fuel at least the depth bound, replace_references
on a duplicate-free bounded tree behaves as NodeOk describes - it
terminates without exhausting fuel however the identity-level reference
graph is shaped, rewrites exactly the Reference slots to shared table
nodes, and raises the dangling error exactly when a slot identity is
absent. -/
theorem masterNode (refs : RefTable) :
    ∀ d fuel, d ≤ fuel → NodeOk refs fuel d := by
  intro d
  induction d with
  | zero =>
    intro fuel _ σ n hs _
    simp [structLe] at hs
  | succ d ihd =>
    intro fuel hfuel σ n hs hnodup
    cases fuel with
    | zero => omega
    | succ fuel' =>
      have ihnode : NodeOk refs fuel' d := ihd fuel' (by omega)
      cases hget : storeGet σ n with
      | none => simp [structLe, hget] at hs
      | some dat =>
        cases dat with
        | array es =>
          have hsch : ∀ c ∈ es, structLe σ d c = true := by
            simp only [structLe, hget, childIds] at hs
            exact fun c hc => List.all_eq_true.mp hs c hc
          have hnodes : nodesLe σ (d + 1) n = n :: (es.map (nodesLe σ d)).flatten := by
            simp [nodesLe, childIdsAt, hget, childIds]
          rw [hnodes, List.nodup_cons] at hnodup
          obtain ⟨hn_notin, hnodtail⟩ := hnodup
          have gm := goChildren_master ihnode es σ hsch hnodtail
          constructor
          · intro hclean0
            rw [hasDangling_array hget] at hclean0
            have hcleanslots : ∀ c' ∈ es, slotDangling σ refs d c' = false := by
              intro c' hc'
              cases h : slotDangling σ refs d c' with
              | false => rfl
              | true =>
                exact absurd (List.any_eq_true.mpr ⟨c', hc', h⟩)
                  (by rw [hclean0]; simp)
            obtain ⟨σ', he, hframe, hchar⟩ := gm.1 hcleanslots
            refine ⟨storeSet σ' n (.array (es.map (substSlot σ refs))), ?_, ?_, ?_⟩
            · simp only [replaceRefsNode, hget, he]
            · intro m hm
              rw [hnodes] at hm
              simp only [List.mem_cons, not_or] at hm
              rw [storeGet_set_ne _ _ _ _ hm.1, hframe m hm.2]
            · intro m hm
              rw [hnodes] at hm
              rcases List.mem_cons.mp hm with rfl | hm
              · rw [storeGet_set_self]
                simp [expectedData, hget]
              · have hmn : m ≠ n := fun h => hn_notin (h ▸ hm)
                rw [storeGet_set_ne _ _ _ _ hmn]
                exact hchar m hm
          · intro hd0
            rw [hasDangling_array hget] at hd0
            obtain ⟨c', hc', hslot⟩ := List.any_eq_true.mp hd0
            obtain ⟨o, g, he, habs⟩ := gm.2 ⟨c', hc', hslot⟩
            exact ⟨o, g, by simp only [replaceRefsNode, hget, he], habs⟩
        | dict es =>
          have hsch : ∀ c ∈ es.map Prod.snd, structLe σ d c = true := by
            simp only [structLe, hget, childIds] at hs
            exact fun c hc => List.all_eq_true.mp hs c hc
          have hnodes : nodesLe σ (d + 1) n
              = n :: ((es.map Prod.snd).map (nodesLe σ d)).flatten := by
            simp [nodesLe, childIdsAt, hget, childIds]
          rw [hnodes, List.nodup_cons] at hnodup
          obtain ⟨hn_notin, hnodtail⟩ := hnodup
          have gm := goChildren_master ihnode (es.map Prod.snd) σ hsch hnodtail
          constructor
          · intro hclean0
            rw [hasDangling_dict hget] at hclean0
            have hcleanslots : ∀ c' ∈ es.map Prod.snd, slotDangling σ refs d c' = false := by
              intro c' hc'
              cases h : slotDangling σ refs d c' with
              | false => rfl
              | true =>
                exact absurd (List.any_eq_true.mpr ⟨c', hc', h⟩)
                  (by rw [hclean0]; simp)
            obtain ⟨σ', he, hframe, hchar⟩ := gm.1 hcleanslots
            refine ⟨storeSet σ' n
              (.dict (es.map (fun e => (e.1, substSlot σ refs e.2)))), ?_, ?_, ?_⟩
            · simp only [replaceRefsNode, hget, he, zip_map_fst_map_snd]
            · intro m hm
              rw [hnodes] at hm
              simp only [List.mem_cons, not_or] at hm
              rw [storeGet_set_ne _ _ _ _ hm.1, hframe m hm.2]
            · intro m hm
              rw [hnodes] at hm
              rcases List.mem_cons.mp hm with rfl | hm
              · rw [storeGet_set_self]
                simp [expectedData, hget]
              · have hmn : m ≠ n := fun h => hn_notin (h ▸ hm)
                rw [storeGet_set_ne _ _ _ _ hmn]
                exact hchar m hm
          · intro hd0
            rw [hasDangling_dict hget] at hd0
            obtain ⟨c', hc', hslot⟩ := List.any_eq_true.mp hd0
            obtain ⟨o, g, he, habs⟩ := gm.2 ⟨c', hc', hslot⟩
            exact ⟨o, g, by simp only [replaceRefsNode, hget, he], habs⟩
        | stream sd bs =>
          have hssd : structLe σ d sd = true := by
            simp only [structLe, hget, childIds] at hs
            simpa using hs
          have hnodes : nodesLe σ (d + 1) n = n :: nodesLe σ d sd := by
            simp [nodesLe, childIdsAt, hget, childIds]
          rw [hnodes, List.nodup_cons] at hnodup
          obtain ⟨hn_notin, hnodsd⟩ := hnodup
          have node := ihnode σ sd hssd hnodsd
          constructor
          · intro hclean0
            rw [hasDangling_stream hget] at hclean0
            obtain ⟨σ', he, hframe, hchar⟩ := node.1 hclean0
            refine ⟨σ', ?_, ?_, ?_⟩
            · simp only [replaceRefsNode, hget]
              exact he
            · intro m hm
              rw [hnodes] at hm
              simp only [List.mem_cons, not_or] at hm
              exact hframe m hm.2
            · intro m hm
              rw [hnodes] at hm
              rcases List.mem_cons.mp hm with rfl | hm
              · rw [hframe m hn_notin]
                simp [expectedData, hget]
              · exact hchar m hm
          · intro hd0
            rw [hasDangling_stream hget] at hd0
            obtain ⟨o, g, he, habs⟩ := node.2 hd0
            refine ⟨o, g, ?_, habs⟩
            simp only [replaceRefsNode, hget]
            exact he
        | null =>
          constructor
          · intro _
            refine ⟨σ, by simp only [replaceRefsNode, hget], fun m _ => rfl, ?_⟩
            intro m hm
            rw [nodesLe_of_leaf (by simp [childIdsAt, hget, childIds]) (d + 1)] at hm
            simp at hm
            rw [hm]
            simp [expectedData, hget]
          · intro hdan
            rw [show hasDanglingLe σ refs (d + 1) n = false by
              simp [hasDanglingLe, hget]] at hdan
            cases hdan
        | boolean b =>
          constructor
          · intro _
            refine ⟨σ, by simp only [replaceRefsNode, hget], fun m _ => rfl, ?_⟩
            intro m hm
            rw [nodesLe_of_leaf (by simp [childIdsAt, hget, childIds]) (d + 1)] at hm
            simp at hm
            rw [hm]
            simp [expectedData, hget]
          · intro hdan
            rw [show hasDanglingLe σ refs (d + 1) n = false by
              simp [hasDanglingLe, hget]] at hdan
            cases hdan
        | numInt v =>
          constructor
          · intro _
            refine ⟨σ, by simp only [replaceRefsNode, hget], fun m _ => rfl, ?_⟩
            intro m hm
            rw [nodesLe_of_leaf (by simp [childIdsAt, hget, childIds]) (d + 1)] at hm
            simp at hm
            rw [hm]
            simp [expectedData, hget]
          · intro hdan
            rw [show hasDanglingLe σ refs (d + 1) n = false by
              simp [hasDanglingLe, hget]] at hdan
            cases hdan
        | numReal t =>
          constructor
          · intro _
            refine ⟨σ, by simp only [replaceRefsNode, hget], fun m _ => rfl, ?_⟩
            intro m hm
            rw [nodesLe_of_leaf (by simp [childIdsAt, hget, childIds]) (d + 1)] at hm
            simp at hm
            rw [hm]
            simp [expectedData, hget]
          · intro hdan
            rw [show hasDanglingLe σ refs (d + 1) n = false by
              simp [hasDanglingLe, hget]] at hdan
            cases hdan
        | str v =>
          constructor
          · intro _
            refine ⟨σ, by simp only [replaceRefsNode, hget], fun m _ => rfl, ?_⟩
            intro m hm
            rw [nodesLe_of_leaf (by simp [childIdsAt, hget, childIds]) (d + 1)] at hm
            simp at hm
            rw [hm]
            simp [expectedData, hget]
          · intro hdan
            rw [show hasDanglingLe σ refs (d + 1) n = false by
              simp [hasDanglingLe, hget]] at hdan
            cases hdan
        | name l =>
          constructor
          · intro _
            refine ⟨σ, by simp only [replaceRefsNode, hget], fun m _ => rfl, ?_⟩
            intro m hm
            rw [nodesLe_of_leaf (by simp [childIdsAt, hget, childIds]) (d + 1)] at hm
            simp at hm
            rw [hm]
            simp [expectedData, hget]
          · intro hdan
            rw [show hasDanglingLe σ refs (d + 1) n = false by
              simp [hasDanglingLe, hget]] at hdan
            cases hdan
        | ref o g =>
          constructor
          · intro _
            refine ⟨σ, by simp only [replaceRefsNode, hget], fun m _ => rfl, ?_⟩
            intro m hm
            rw [nodesLe_of_leaf (by simp [childIdsAt, hget, childIds]) (d + 1)] at hm
            simp at hm
            rw [hm]
            simp [expectedData, hget]
          · intro hdan
            rw [show hasDanglingLe σ refs (d + 1) n = false by
              simp [hasDanglingLe, hget]] at hdan
            cases hdan

/-- The table-level master lemma for the loop of Body.resolve_references:
objects with pairwise disjoint, duplicate-free, depth-bounded trees are
resolved in sequence; when no slot anywhere dangles the loop succeeds and
every object tree holds exactly its expected post-resolution data, and
when some slot dangles the loop aborts with a dangling error naming an
absent identity. -/
theorem tableMaster (refs : RefTable) (d fuel : Nat) (hfuel : d ≤ fuel) :
    ∀ (rem : List ((Nat × Nat) × NodeId)) (σ : ObjStore),
      (∀ e ∈ rem, structLe σ d e.2 = true) →
      ((rem.map (fun e => nodesLe σ d e.2)).flatten).Nodup →
      ((∀ e ∈ rem, hasDanglingLe σ refs d e.2 = false) →
        ∃ σ', resolveObjects fuel refs σ rem = .ok σ'
          ∧ (∀ m, m ∉ (rem.map (fun e => nodesLe σ d e.2)).flatten →
              storeGet σ' m = storeGet σ m)
          ∧ (∀ m, m ∈ (rem.map (fun e => nodesLe σ d e.2)).flatten →
              storeGet σ' m = expectedData σ refs m)) ∧
      ((∃ e ∈ rem, hasDanglingLe σ refs d e.2 = true) →
        ∃ o g, resolveObjects fuel refs σ rem = .error (.dangling o g)
          ∧ findRef refs o g = none) := by
  intro rem
  induction rem with
  | nil =>
    intro σ _ _
    constructor
    · intro _
      exact ⟨σ, rfl, fun m _ => rfl, fun m hm => absurd hm (by simp)⟩
    · rintro ⟨e, he, _⟩
      simp at he
  | cons obj rest ih =>
    obtain ⟨idp, n⟩ := obj
    intro σ hstruct hnodup
    have hsn : structLe σ d n = true := hstruct (idp, n) (by simp)
    rw [List.map_cons, List.flatten_cons, List.nodup_append] at hnodup
    obtain ⟨hnodn, hnodtail, hdisj⟩ := hnodup
    have node := masterNode refs d fuel hfuel σ n hsn hnodn
    by_cases hdn : hasDanglingLe σ refs d n = true
    · obtain ⟨o, g, he, habs⟩ := node.2 hdn
      constructor
      · intro hclean
        have := hclean (idp, n) (by simp)
        rw [hdn] at this
        cases this
      · intro _
        refine ⟨o, g, ?_, habs⟩
        simp only [resolveObjects, he]
    · have hdn' : hasDanglingLe σ refs d n = false := by simpa using hdn
      obtain ⟨σ1, he1, hframe1, hchar1⟩ := node.1 hdn'
      have hagtail : Agrees σ σ1 ((rest.map (fun e => nodesLe σ d e.2)).flatten) := by
        intro m hm
        exact hframe1 m (fun hmc => hdisj hmc hm)
      have hagobj : ∀ e ∈ rest, Agrees σ σ1 (nodesLe σ d e.2) := by
        intro e h'
        exact hagtail.mono (fun m hm =>
          List.mem_flatten.mpr ⟨nodesLe σ d e.2,
            List.mem_map.mpr ⟨e, h', rfl⟩, hm⟩)
      have hstruct1 : ∀ e ∈ rest, structLe σ1 d e.2 = true := by
        intro e h'
        rw [structLe_congr d e.2 (hagobj e h')]
        exact hstruct e (by simp [h'])
      have hflat1 : (rest.map (fun e => nodesLe σ1 d e.2)).flatten
          = (rest.map (fun e => nodesLe σ d e.2)).flatten := by
        congr 1
        exact map_congr_mem (fun e h' => nodesLe_congr d e.2 (hagobj e h'))
      have hnodtail1 : ((rest.map (fun e => nodesLe σ1 d e.2)).flatten).Nodup := by
        rw [hflat1]; exact hnodtail
      have tail := ih σ1 hstruct1 hnodtail1
      constructor
      · intro hclean
        obtain ⟨σ2, he2, hframe2, hchar2⟩ := tail.1 (by
          intro e h'
          rw [hasDanglingLe_congr d e.2 (hagobj e h')]
          exact hclean e (by simp [h']))
        refine ⟨σ2, ?_, ?_, ?_⟩
        · simp only [resolveObjects, he1, he2]
        · intro m hm
          rw [List.map_cons, List.flatten_cons, List.mem_append] at hm
          push_neg at hm
          have h2 : storeGet σ2 m = storeGet σ1 m := by
            apply hframe2
            rw [hflat1]
            exact hm.2
          rw [h2]
          exact hframe1 m hm.1
        · intro m hm
          rw [List.map_cons, List.flatten_cons, List.mem_append] at hm
          rcases hm with hm | hm
          · have hmnot : m ∉ (rest.map (fun e => nodesLe σ1 d e.2)).flatten := by
              rw [hflat1]
              exact fun hin => hdisj hm hin
            rw [hframe2 m hmnot]
            exact hchar1 m hm
          · have h2 := hchar2 m (by rw [hflat1]; exact hm)
            rw [h2]
            obtain ⟨L, hL, hmL⟩ := List.mem_flatten.mp hm
            obtain ⟨e, h', rfl⟩ := List.mem_map.mp hL
            exact expectedData_congr (hstruct e (by simp [h'])) (hagobj e h') hmL
      · rintro ⟨e, he', hdang⟩
        rcases List.mem_cons.mp he' with rfl | he'
        · rw [hdn'] at hdang
          cases hdang
        · obtain ⟨o', g', he2, habs⟩ := tail.2 ⟨e, he', by
            rw [hasDanglingLe_congr d e.2 (hagobj e he')]
            exact hdang⟩
          refine ⟨o', g', ?_, habs⟩
          simp only [resolveObjects, he1, he2]

/-! ## Claim C1 -/

/-- C1.  On every complete table - every Reference slot identity present -
whose object trees are what the parser produces (finite, depth-bounded,
duplicate-free, pairwise disjoint heaps), resolution terminates no matter
how the identity-level reference graph is shaped: no acyclicity hypothesis
appears, so self-referential and mutually referential chains are covered.
Termination is expressed by fuel-irrelevance: any fuel at least the tree
depth yields the same resolved store, never the fuel-exhaustion outcome.
Each Reference slot is replaced exactly once, by the node id of the shared
table entry for its identity (the expectedData characterization), with no
expansion of the target subtree, and every node outside the object trees
is untouched.  The resulting graph may legitimately contain a cycle; the
witness resolves an object whose array refers back to its own identity and
exhibits the self-loop in the result. -/
theorem c1_resolver_cycle_safety
    (objs : RefTable) (σ : ObjStore) (d fuel : Nat)
    (hfuel : d ≤ fuel)
    (hstruct : ∀ e ∈ objs, structLe σ d e.2 = true)
    (hnodup : ((objs.map (fun e => nodesLe σ d e.2)).flatten).Nodup)
    (hcomplete : ∀ e ∈ objs, hasDanglingLe σ objs d e.2 = false) :
    ∃ σ', resolve_references fuel objs σ = .ok σ'
      ∧ (∀ fuel', d ≤ fuel' → ∃ σ'', resolve_references fuel' objs σ = .ok σ''
          ∧ ∀ m, storeGet σ'' m = storeGet σ' m)
      ∧ (∀ e ∈ objs, ∀ m, m ∈ nodesLe σ d e.2 →
          storeGet σ' m = expectedData σ objs m)
      ∧ (∀ m, (∀ e ∈ objs, m ∉ nodesLe σ d e.2) → storeGet σ' m = storeGet σ m) := by
  obtain ⟨σ', he, hframe, hchar⟩ :=
    (tableMaster objs d fuel hfuel objs σ hstruct hnodup).1 hcomplete
  refine ⟨σ', he, ?_, ?_, ?_⟩
  · intro fuel' hfuel'
    obtain ⟨σ'', he'', hframe'', hchar''⟩ :=
      (tableMaster objs d fuel' hfuel' objs σ hstruct hnodup).1 hcomplete
    refine ⟨σ'', he'', ?_⟩
    intro m
    by_cases hm : m ∈ (objs.map (fun e => nodesLe σ d e.2)).flatten
    · rw [hchar'' m hm, hchar m hm]
    · rw [hframe'' m hm, hframe m hm]
  · intro e he' m hm
    exact hchar m (List.mem_flatten.mpr ⟨nodesLe σ d e.2,
      List.mem_map.mpr ⟨e, he', rfl⟩, hm⟩)
  · intro m hm
    refine hframe m (fun hin => ?_)
    obtain ⟨L, hL, hmL⟩ := List.mem_flatten.mp hin
    obtain ⟨e, he', rfl⟩ := List.mem_map.mp hL
    exact hm e he' hmL

/-- Witness for C1: the table with the single object (1,0) whose content
is the one-element array holding a Reference to (1,0) itself - a direct
cycle - satisfies the hypotheses, resolves successfully, and the resolved
array holds the node of its own object: the graph now contains a cycle. -/
theorem c1_resolver_cycle_safety_witness :
    ((2 : Nat) ≤ 2
      ∧ (∀ e ∈ [((1, 0), 0)], structLe [(0, .array [1]), (1, .ref 1 0)] 2 e.2 = true)
      ∧ (([((1, 0), (0 : NodeId))].map
          (fun e => nodesLe [(0, .array [1]), (1, .ref 1 0)] 2 e.2)).flatten).Nodup
      ∧ (∀ e ∈ [((1, 0), 0)], hasDanglingLe [(0, .array [1]), (1, .ref 1 0)]
          [((1, 0), 0)] 2 e.2 = false))
    ∧ (∃ σ', resolve_references 2 [((1, 0), 0)] [(0, .array [1]), (1, .ref 1 0)] = .ok σ')
    ∧ resolve_references 2 [((1, 0), 0)] [(0, .array [1]), (1, .ref 1 0)]
        = .ok [(0, .array [0]), (1, .ref 1 0)]
    ∧ storeGet [(0, NodeData.array [0]), (1, .ref 1 0)] 0 = some (.array [0]) :=
  ⟨⟨by decide, by decide, by decide, by decide⟩,
    (c1_resolver_cycle_safety [((1, 0), 0)] [(0, .array [1]), (1, .ref 1 0)] 2 2
      (by decide) (by decide) (by decide) (by decide)).elim
      (fun σ' h => ⟨σ', h.1⟩),
    rfl, rfl⟩

/-! ## Claim C2 -/

/-- The child slot k of a composite node, as Python indexes elements of an
Array or entries of a Dictionary. -/
def slotAt (σ : ObjStore) (m : NodeId) (k : Nat) : Option NodeId :=
  match storeGet σ m with
  | some (.array es) => es[k]?
  | some (.dict es) => (es[k]?).map Prod.snd
  | _ => none

theorem slotAt_resolved {σ σ' : ObjStore} {objs : RefTable} {m k : Nat}
    {c : NodeId} {o g : Nat} {t : NodeId}
    (hchar : storeGet σ' m = expectedData σ objs m)
    (hs : slotAt σ m k = some c) (hr : refOf σ c = some (o, g))
    (hfound : findRef objs o g = some t) :
    slotAt σ' m k = some t := by
  cases hg : storeGet σ m with
  | none => simp [slotAt, hg] at hs
  | some dat =>
    cases dat with
    | array es =>
      simp only [slotAt, hg] at hs
      have hexp : storeGet σ' m = some (.array (es.map (substSlot σ objs))) := by
        rw [hchar]; simp [expectedData, hg]
      simp only [slotAt, hexp, List.getElem?_map, hs]
      simp [substSlot_refCase hr, hfound]
    | dict es =>
      simp only [slotAt, hg] at hs
      have hexp : storeGet σ' m
          = some (.dict (es.map (fun e => (e.1, substSlot σ objs e.2)))) := by
        rw [hchar]; simp [expectedData, hg]
      obtain ⟨p, hp, hpc⟩ : ∃ p, es[k]? = some p ∧ p.2 = c := by
        cases hk : es[k]? with
        | none => rw [hk] at hs; cases hs
        | some p => rw [hk] at hs; exact ⟨p, rfl, by simpa using hs⟩
      simp only [slotAt, hexp, List.getElem?_map, hp]
      simp [hpc, substSlot_refCase hr, hfound]
    | null => simp [slotAt, hg] at hs
    | boolean b => simp [slotAt, hg] at hs
    | numInt v => simp [slotAt, hg] at hs
    | numReal t2 => simp [slotAt, hg] at hs
    | str v => simp [slotAt, hg] at hs
    | name l => simp [slotAt, hg] at hs
    | stream sd bs => simp [slotAt, hg] at hs
    | ref o2 g2 => simp [slotAt, hg] at hs

/-- C2.  Resolved targets are shared, not copied: on a complete table of
parser-shaped trees, whenever two (not necessarily distinct) composite
nodes inside object trees each hold, at some slot, a Reference child with
the same identity (o,g), the resolved stores give both slots the very same
node id t - the table entry for (o,g) - so both referrers observe the same
underlying node of the heap, identity-equal rather than merely
structurally equal, and no copy of the target subtree is made. -/
theorem c2_resolver_identity_sharing
    (objs : RefTable) (σ : ObjStore) (d fuel : Nat)
    (hfuel : d ≤ fuel)
    (hstruct : ∀ e ∈ objs, structLe σ d e.2 = true)
    (hnodup : ((objs.map (fun e => nodesLe σ d e.2)).flatten).Nodup)
    (hcomplete : ∀ e ∈ objs, hasDanglingLe σ objs d e.2 = false)
    (e1 e2 : (Nat × Nat) × NodeId) (he1 : e1 ∈ objs) (he2 : e2 ∈ objs)
    (m1 m2 k1 k2 : Nat) (c1 c2 : NodeId) (o g : Nat) (t : NodeId)
    (hm1 : m1 ∈ nodesLe σ d e1.2) (hm2 : m2 ∈ nodesLe σ d e2.2)
    (hs1 : slotAt σ m1 k1 = some c1) (hr1 : refOf σ c1 = some (o, g))
    (hs2 : slotAt σ m2 k2 = some c2) (hr2 : refOf σ c2 = some (o, g))
    (hfound : findRef objs o g = some t) :
    ∃ σ', resolve_references fuel objs σ = .ok σ'
      ∧ slotAt σ' m1 k1 = some t ∧ slotAt σ' m2 k2 = some t := by
  obtain ⟨σ', he, hframe, hchar⟩ :=
    (tableMaster objs d fuel hfuel objs σ hstruct hnodup).1 hcomplete
  have hc1 : storeGet σ' m1 = expectedData σ objs m1 :=
    hchar m1 (List.mem_flatten.mpr ⟨nodesLe σ d e1.2,
      List.mem_map.mpr ⟨e1, he1, rfl⟩, hm1⟩)
  have hc2 : storeGet σ' m2 = expectedData σ objs m2 :=
    hchar m2 (List.mem_flatten.mpr ⟨nodesLe σ d e2.2,
      List.mem_map.mpr ⟨e2, he2, rfl⟩, hm2⟩)
  exact ⟨σ', he, slotAt_resolved hc1 hs1 hr1 hfound,
    slotAt_resolved hc2 hs2 hr2 hfound⟩

/-- Witness for C2 at the worked example of the specification: object
(1,0) is a dictionary of Type Catalog, objects (2,0) and (3,0) both hold a
Reference to (1,0) - one inside an array, one inside a dictionary - and
after resolution both slots hold node 0, the single shared table entry. -/
theorem c2_resolver_identity_sharing_witness :
    (∃ σ', resolve_references 3
        [((1, 0), 0), ((2, 0), 1), ((3, 0), 3)]
        [(0, .dict [("Type", 5)]), (5, .name "Catalog"),
         (1, .array [2]), (2, .ref 1 0),
         (3, .dict [("K", 4)]), (4, .ref 1 0)] = .ok σ'
      ∧ slotAt σ' 1 0 = some 0 ∧ slotAt σ' 3 0 = some 0)
    ∧ resolve_references 3
        [((1, 0), 0), ((2, 0), 1), ((3, 0), 3)]
        [(0, .dict [("Type", 5)]), (5, .name "Catalog"),
         (1, .array [2]), (2, .ref 1 0),
         (3, .dict [("K", 4)]), (4, .ref 1 0)]
      = .ok [(0, .dict [("Type", 5)]), (5, .name "Catalog"),
             (1, .array [0]), (2, .ref 1 0),
             (3, .dict [("K", 0)]), (4, .ref 1 0)] :=
  ⟨(c2_resolver_identity_sharing
      [((1, 0), 0), ((2, 0), 1), ((3, 0), 3)]
      [(0, .dict [("Type", 5)]), (5, .name "Catalog"),
       (1, .array [2]), (2, .ref 1 0),
       (3, .dict [("K", 4)]), (4, .ref 1 0)] 3 3
      (by decide) (by decide) (by decide) (by decide)
      ((2, 0), 1) ((3, 0), 3) (by decide) (by decide)
      1 3 0 0 2 4 1 0 0
      (by decide) (by decide) (by decide) (by decide) (by decide) (by decide)
      (by decide)).elim
      (fun σ' h => ⟨σ', h.1, h.2.1, h.2.2⟩),
    rfl⟩

/-! ## Claim C3 -/

/-- C3, counterexample.  The claim as stated is false on the code: a table
in which some object tree contains a Reference whose identity is absent
does not always fail.  When the dangling Reference is the entire content
of an object - its tree root - replace_references dispatches to the
Reference no-op, no parent slot exists to be rewritten, and resolution of
the whole table succeeds silently: here object (1,0) is exactly the
Reference 2 0 R, identity (2,0) is absent, and resolve_references returns
the unchanged store instead of a DanglingReference error. -/
theorem c3_counterexample_toplevel_dangling :
    resolve_references 3 [((1, 0), 0)] [(0, .ref 2 0)] = .ok [(0, .ref 2 0)]
    ∧ findRef [((1, 0), 0)] 2 0 = none :=
  ⟨rfl, rfl⟩

/-- C3, amended: for every table in which some object tree contains,
strictly below its root - in a child slot of an Array or Dictionary,
including inside a stream dictionary - a Reference whose identity is
absent from the table, resolution fails with the dangling-reference
ParseError naming an absent identity, the first such error aborts
resolution of the entire table, and no resolved store (in particular no
silently substituted Null) is ever produced.  An object whose entire
content is a bare dangling Reference escapes this check, as the
counterexample shows. -/
theorem c3_amended_dangling_below_root
    (objs : RefTable) (σ : ObjStore) (d fuel : Nat)
    (hfuel : d ≤ fuel)
    (hstruct : ∀ e ∈ objs, structLe σ d e.2 = true)
    (hnodup : ((objs.map (fun e => nodesLe σ d e.2)).flatten).Nodup)
    (hdang : ∃ e ∈ objs, hasDanglingLe σ objs d e.2 = true) :
    ∃ o g, resolve_references fuel objs σ = .error (.dangling o g)
      ∧ findRef objs o g = none
      ∧ ∀ σ', resolve_references fuel objs σ ≠ .ok σ' := by
  obtain ⟨o, g, he, habs⟩ :=
    (tableMaster objs d fuel hfuel objs σ hstruct hnodup).2 hdang
  refine ⟨o, g, he, habs, ?_⟩
  intro σ' hok
  have hok2 : resolveObjects fuel objs σ objs = .ok σ' := hok
  rw [he] at hok2
  cases hok2

/-- Witness for the amended C3: object (1,0) is an array holding a
Reference to the absent identity (7,0); resolution aborts with the
dangling error naming (7,0). -/
theorem c3_amended_dangling_below_root_witness :
    ((2 : Nat) ≤ 2
      ∧ (∀ e ∈ [((1, 0), 0)], structLe [(0, .array [1]), (1, .ref 7 0)] 2 e.2 = true)
      ∧ (∃ e ∈ [((1, 0), (0 : NodeId))],
          hasDanglingLe [(0, .array [1]), (1, .ref 7 0)] [((1, 0), 0)] 2 e.2 = true))
    ∧ (∃ o g, resolve_references 2 [((1, 0), 0)] [(0, .array [1]), (1, .ref 7 0)]
        = .error (.dangling o g) ∧ findRef [((1, 0), 0)] o g = none)
    ∧ resolve_references 2 [((1, 0), 0)] [(0, .array [1]), (1, .ref 7 0)]
        = .error (.dangling 7 0) :=
  ⟨⟨by decide, by decide, by decide⟩,
    (c3_amended_dangling_below_root [((1, 0), 0)] [(0, .array [1]), (1, .ref 7 0)] 2 2
      (by decide) (by decide) (by decide) (by decide)).elim
      (fun o h => h.elim (fun g h2 => ⟨o, g, h2.1, h2.2.1⟩)),
    rfl⟩

/-! ## Claim C10 -/

/-- C10.  Stream.replace_references delegates into the stream dictionary
for every lookup table, mutating nothing of its own: the first conjunct is
the unconditional delegation equation; on parser-shaped trees the node of
the Stream itself still holds the same dictionary pointer and the same raw
payload bytes after resolution, and every node outside the stream
dictionary subtree is untouched.  The children enumerated for a Stream are
exactly the children of its stream dictionary. -/
theorem c10_stream_replace_frame
    (σ : ObjStore) (refs : RefTable) (n sd : NodeId) (bs : Bytes)
    (es : List (String × NodeId)) (d fuel : Nat)
    (hget : storeGet σ n = some (.stream sd bs))
    (hsd : storeGet σ sd = some (.dict es))
    (hfuel : d ≤ fuel)
    (hstruct : structLe σ (d + 1) n = true)
    (hnodup : (nodesLe σ (d + 1) n).Nodup)
    (hclean : hasDanglingLe σ refs (d + 1) n = false) :
    (∀ refs' : RefTable,
      replaceRefsNode (fuel + 1) refs' σ n = replaceRefsNode fuel refs' σ sd)
    ∧ (∃ σ', replaceRefsNode (fuel + 1) refs σ n = .ok σ'
        ∧ storeGet σ' n = some (.stream sd bs)
        ∧ (∀ m, m ∉ nodesLe σ d sd → storeGet σ' m = storeGet σ m))
    ∧ (∀ f : Nat, pyChildren σ (f + 1) n = pyChildren σ f sd)
    ∧ pyChildren σ 2 n = es.map Prod.snd
    ∧ pyChildren σ 1 sd = es.map Prod.snd := by
  have hnodes : nodesLe σ (d + 1) n = n :: nodesLe σ d sd := by
    simp [nodesLe, childIdsAt, hget, childIds]
  have hn_notin : n ∉ nodesLe σ d sd := by
    rw [hnodes, List.nodup_cons] at hnodup
    exact hnodup.1
  obtain ⟨σ', he, hframe, hchar⟩ :=
    (masterNode refs (d + 1) (fuel + 1) (by omega) σ n hstruct hnodup).1 hclean
  refine ⟨?_, ⟨σ', he, ?_, ?_⟩, ?_, ?_, ?_⟩
  · intro refs'
    simp only [replaceRefsNode, hget]
  · have := hchar n (self_mem_nodesLe σ (d + 1) n)
    rw [this]
    simp [expectedData, hget]
  · intro m hm
    by_cases hmn : m = n
    · subst hmn
      rw [hchar m (self_mem_nodesLe σ (d + 1) m)]
      simp [expectedData, hget]
    · refine hframe m ?_
      rw [hnodes]
      simp [hmn, hm]
  · intro f
    simp only [pyChildren, hget]
  · simp [pyChildren, hget, hsd]
  · simp [pyChildren, hsd]

/-- Witness for C10: a Stream at node 0 whose stream dictionary refers
back to the stream object (1,0) itself, resolved with the payload bytes
left untouched and only the dictionary slot rewritten. -/
theorem c10_stream_replace_frame_witness :
    (storeGet [(0, .stream 1 [9, 9]), (1, .dict [("A", 2)]), (2, .ref 1 0)] 0
        = some (.stream 1 [9, 9])
      ∧ (2 : Nat) ≤ 2
      ∧ structLe [(0, .stream 1 [9, 9]), (1, .dict [("A", 2)]), (2, .ref 1 0)] 3 0 = true
      ∧ hasDanglingLe [(0, .stream 1 [9, 9]), (1, .dict [("A", 2)]), (2, .ref 1 0)]
          [((1, 0), 0)] 3 0 = false)
    ∧ (∃ σ', replaceRefsNode 3 [((1, 0), 0)]
        [(0, .stream 1 [9, 9]), (1, .dict [("A", 2)]), (2, .ref 1 0)] 0 = .ok σ'
        ∧ storeGet σ' 0 = some (.stream 1 [9, 9]))
    ∧ replaceRefsNode 3 [((1, 0), 0)]
        [(0, .stream 1 [9, 9]), (1, .dict [("A", 2)]), (2, .ref 1 0)] 0
      = .ok [(0, .stream 1 [9, 9]), (1, .dict [("A", 0)]), (2, .ref 1 0)] :=
  ⟨⟨rfl, by decide, by decide, by decide⟩,
    (c10_stream_replace_frame
      [(0, .stream 1 [9, 9]), (1, .dict [("A", 2)]), (2, .ref 1 0)]
      [((1, 0), 0)] 0 1 [9, 9] [("A", 2)] 2 2
      rfl rfl (by decide) (by decide) (by decide) (by decide)).elim
      (fun _ h => h.1.elim (fun σ' h2 => ⟨σ', h2.1, h2.2.1⟩)),
    rfl⟩
